import Mathlib

/-!
Verification development for the ReAct agent core
(`src/ch2/agentReAct.py`, class `ReActAgent`).

The Python code is shallowly embedded below.  Regular-expression behaviour
is modelled character-exactly for the three patterns the code uses:
* `re.search(r"Thought: (.*)", text)` / `re.search(r"Action: (.*)", text)` —
  leftmost occurrence of the literal marker anywhere in the text, capture to
  the end of the line (`.` does not match a newline);
* `re.match(r"(\w+)\[(.*)\]", s)` — anchored at the start only (no end
  anchor), greedy capture up to the last `]` on the first line after the `[`;
* `re.match(r"Finish\[(.*)\]", s)` — same, with the literal head `Finish[`.

The generator (`llm_client.think`) is modelled as a scripted oracle indexed
by the call number, and the tool registry (`tool_executor.getTool`) as a
partial map from names to string functions; the rendered prompt only feeds
the generator, so it carries no state of its own.  A run that the Python
code would abandon by raising `AttributeError` is modelled by the outcome
`crashed`.
-/

namespace ReActAgent

/-- Python `\w` on the action strings used here: letters, digits, underscore. -/
def isWordChar (c : Char) : Bool := c.isAlphanum || c = '_'

/-- The characters removed by Python `str.strip()`. -/
def isSpaceChar (c : Char) : Bool :=
  c = ' ' || c = '\t' || c = '\n' || c = '\r' || c = '\x0b' || c = '\x0c'

/-- `.` in a Python regex without DOTALL: any character except a newline. -/
def notNewline (c : Char) : Bool := !(c == '\n')

/-- Python `str.strip()`: drop whitespace from both ends. -/
def trimL (l : List Char) : List Char :=
  ((l.dropWhile isSpaceChar).reverse.dropWhile isSpaceChar).reverse

/-- `startsWithL pat s`: `pat` is a prefix of `s` (Python `str.startswith`). -/
def startsWithL : List Char → List Char → Bool
  | [], _ => true
  | _ :: _, [] => false
  | p :: ps, c :: cs => p == c && startsWithL ps cs

/-- `re.search` for a pattern `pat ++ "(.*)"`: find the leftmost occurrence
of the literal `pat` and return everything after it (the line boundary is
cut later by `takeWhile notNewline`). -/
def searchCapture (pat : List Char) : List Char → Option (List Char)
  | [] => none
  | c :: cs =>
    if startsWithL pat (c :: cs) then some ((c :: cs).drop pat.length)
    else searchCapture pat cs

/-- Not the closing bracket. -/
def notClose (c : Char) : Bool := !(c == ']')

/-- Greedy `(.*)\]` within one line: everything strictly before the last `]`
of `line`, or `none` when `line` has no `]`. -/
def argBeforeLastClose (line : List Char) : Option (List Char) :=
  match line.reverse.dropWhile notClose with
  | [] => none
  | _ :: restRev => some restRev.reverse

/-- Embedding of `ReActAgent._parse_output` (agentReAct.py lines 19-25):
`re.search(r"Thought: (.*)", text)` and `re.search(r"Action: (.*)", text)`,
each stripped, `None` when the marker does not occur. -/
def parseOutput (text : String) : Option String × Option String :=
  let thought := (searchCapture "Thought: ".data text.data).map
    (fun r => String.mk (trimL (r.takeWhile notNewline)))
  let action := (searchCapture "Action: ".data text.data).map
    (fun r => String.mk (trimL (r.takeWhile notNewline)))
  (thought, action)

/-- Embedding of `ReActAgent._parse_action` (agentReAct.py lines 27-32):
`re.match(r"(\w+)\[(.*)\]", action_text)`, returning the two groups, or
`(None, None)` when the match fails.  `re.match` anchors at the start only,
so trailing text after the last `]` of the first line is tolerated. -/
def parseAction (s : String) : Option String × Option String :=
  let toolName := s.data.takeWhile isWordChar
  let rest := s.data.dropWhile isWordChar
  if toolName = [] then (none, none)
  else
    match rest with
    | '[' :: rest2 =>
      match argBeforeLastClose (rest2.takeWhile notNewline) with
      | some arg => (some (String.mk toolName), some (String.mk arg))
      | none => (none, none)
    | _ => (none, none)

/-- Embedding of `re.match(r"Finish\[(.*)\]", action)` (agentReAct.py
line 77): `none` models a failed match, on which the Python code raises. -/
def finishPayload (action : String) : Option String :=
  if startsWithL "Finish[".data action.data then
    (argBeforeLastClose
      ((action.data.drop "Finish[".data.length).takeWhile notNewline)).map String.mk
  else none

/-- The observation produced for an unregistered tool (agentReAct.py
line 90). -/
def errObs (toolName : String) : String :=
  "错误:未找到名为 \x27" ++ toolName ++ "\x27 的工具。"

/-- How a `run` ends: a returned final answer, the implicit `None` of a
`break` or an exhausted loop, or an uncaught exception. -/
inductive RunOutcome
  | finished (answer : String)
  | aborted
  | crashed
deriving DecidableEq

/-- What one loop iteration does after the generator call: stop the run, or
continue with the given lines appended to the history. -/
inductive StepRes
  | halt (out : RunOutcome)
  | next (entries : List String)
deriving DecidableEq

/-- The final state of a run: outcome, the history accumulated on the agent,
and the number of generator calls made. -/
structure RunState where
  outcome : RunOutcome
  history : List String
  calls : Nat
deriving DecidableEq

/-- Everything after the empty-response check of one iteration, given the
parsed action text (agentReAct.py lines 75-99). -/
def actionStep (tools : String → Option (String → String)) (action : String) :
    StepRes :=
  if startsWithL "Finish".data action.data then
    match finishPayload action with
    | some ans => .halt (.finished ans)
    | none => .halt .crashed
  else
    match parseAction action with
    | (some toolName, some toolInput) =>
      if toolName = "" || toolInput = "" then .next []
      else
        let observation :=
          match tools toolName with
          | none => errObs toolName
          | some f => f toolInput
        .next ["Action: " ++ action, "Observation: " ++ observation]
    | _ => .next []

/-- One iteration of the `while` body, from the generator response onwards
(agentReAct.py lines 58-99).  The parsed thought is only logged by the code,
so it does not occur here. -/
def stepF (tools : String → Option (String → String))
    (response : Option String) : StepRes :=
  match response with
  | none => .halt .aborted
  | some text =>
    if text = "" then .halt .aborted
    else
      match (parseOutput text).2 with
      | none => .halt .aborted
      | some action =>
        if action = "" then .halt .aborted else actionStep tools action

/-- The `while current_step < self.max_steps` loop (agentReAct.py
lines 41-99): `fuel` is the number of remaining iterations, `calls` the
number of generator calls already made, `hist` the current history. -/
def runLoop (responses : Nat → Option String)
    (tools : String → Option (String → String)) :
    Nat → Nat → List String → RunState
  | 0, calls, hist => ⟨.aborted, hist, calls⟩
  | fuel + 1, calls, hist =>
    match stepF tools (responses calls) with
    | .halt out => ⟨out, hist, calls + 1⟩
    | .next es => runLoop responses tools fuel (calls + 1) (hist ++ es)

/-- Embedding of `ReActAgent.run` (agentReAct.py lines 34-102): the history
is reset to `[]`, the step counter to `0`, and the loop runs for at most
`maxSteps` iterations against the scripted generator `responses`. -/
def run (responses : Nat → Option String)
    (tools : String → Option (String → String)) (maxSteps : Nat) : RunState :=
  runLoop responses tools maxSteps 0 []

example : parseOutput "Thought: foo\nAction: Bar[baz]" =
    (some "foo", some "Bar[baz]") := by decide

example : parseAction "Search[openai gpt]" = (some "Search", some "openai gpt") := by
  decide

example : parseAction "Search" = (none, none) := by decide

example : parseAction "Search[a[b]c]" = (some "Search", some "a[b]c") := by decide

example : parseAction "Search[a]x" = (some "Search", some "a") := by decide

example : parseAction "S[a\n]" = (none, none) := by decide

example : parseAction "S[]x]" = (some "S", some "]x") := by decide

example : finishPayload "Finish[42]" = some "42" := by decide

example : finishPayload "Finish" = none := by decide

example : finishPayload "Finished[42]" = none := by decide

example :
    run (fun i => if i = 0 then some "Thought: t\nAction: Finish[42]" else none)
      (fun _ => none) 5 = ⟨.finished "42", [], 1⟩ := by decide

/-! ### Auxiliary lemmas about the regex model -/

theorem startsWithL_iff (p s : List Char) :
    startsWithL p s = true ↔ ∃ t, s = p ++ t := by
  induction p generalizing s with
  | nil => simp [startsWithL]
  | cons a ps ih =>
    cases s with
    | nil =>
      simp only [startsWithL, List.cons_append]
      constructor
      · intro h; cases h
      · rintro ⟨t, h⟩; cases h
    | cons c cs =>
      simp only [startsWithL, Bool.and_eq_true, beq_iff_eq, ih,
        List.cons_append, List.cons.injEq]
      constructor
      · rintro ⟨rfl, t, rfl⟩; exact ⟨t, rfl, rfl⟩
      · rintro ⟨t, rfl, rfl⟩; exact ⟨rfl, t, rfl⟩

theorem startsWithL_self_append (p t : List Char) :
    startsWithL p (p ++ t) = true :=
  (startsWithL_iff p (p ++ t)).mpr ⟨t, rfl⟩

theorem startsWithL_nil_false {p : List Char} (hp : p ≠ []) :
    startsWithL p [] = false := by
  cases p with
  | nil => exact absurd rfl hp
  | cons a ps => rfl

theorem searchCapture_none_forall {pat : List Char} (hp : pat ≠ [])
    {s : List Char} (h : searchCapture pat s = none) :
    ∀ i, startsWithL pat (s.drop i) = false := by
  induction s with
  | nil =>
    intro i
    rw [List.drop_nil]
    exact startsWithL_nil_false hp
  | cons c cs ih =>
    intro i
    rw [searchCapture] at h
    split at h
    · exact absurd h (by simp)
    · rename_i hsw
      cases i with
      | zero => simpa using hsw
      | succ j => rw [List.drop_succ_cons]; exact ih h j

theorem searchCapture_append_none {pat xs ys : List Char}
    (h : ∀ i, i < xs.length → startsWithL pat (xs.drop i ++ ys) = false) :
    searchCapture pat (xs ++ ys) = searchCapture pat ys := by
  induction xs with
  | nil => rfl
  | cons c cs ih =>
    have h0 : startsWithL pat (c :: (cs ++ ys)) = false := by
      simpa using h 0 (by simp)
    rw [List.cons_append, searchCapture, h0]
    simp only [Bool.false_eq_true, if_false]
    exact ih fun i hi => by simpa using h (i + 1) (by simpa using hi)

theorem startsWithL_append_left {pat l m : List Char}
    (h : startsWithL pat (l ++ m) = true) (hl : pat.length ≤ l.length) :
    startsWithL pat l = true := by
  induction pat generalizing l with
  | nil => rfl
  | cons p ps ih =>
    cases l with
    | nil => simp at hl
    | cons a l' =>
      rw [List.cons_append] at h
      simp only [startsWithL, Bool.and_eq_true, beq_iff_eq] at h ⊢
      exact ⟨h.1, ih h.2 (by simpa using hl)⟩

theorem mem_of_startsWithL_overhang {pat l : List Char} {c : Char}
    {m : List Char} (h : startsWithL pat (l ++ c :: m) = true)
    (hl : l.length < pat.length) : c ∈ pat := by
  induction pat generalizing l with
  | nil => simp at hl
  | cons p ps ih =>
    cases l with
    | nil =>
      simp only [List.nil_append, startsWithL, Bool.and_eq_true,
        beq_iff_eq] at h
      obtain ⟨rfl, -⟩ := h
      exact List.mem_cons_self _ _
    | cons a l' =>
      rw [List.cons_append] at h
      simp only [startsWithL, Bool.and_eq_true, beq_iff_eq] at h
      exact List.mem_cons_of_mem _ (ih h.2 (by simpa using hl))

theorem takeWhile_append_all {p : Char → Bool} {l m : List Char}
    (h : ∀ x ∈ l, p x = true) :
    (l ++ m).takeWhile p = l ++ m.takeWhile p := by
  induction l with
  | nil => rfl
  | cons a l' ih =>
    have ha := h a (List.mem_cons_self _ _)
    rw [List.cons_append, List.takeWhile_cons, ha]
    simp only [if_true]
    rw [ih fun x hx => h x (List.mem_cons_of_mem _ hx), List.cons_append]

theorem dropWhile_append_all {p : Char → Bool} {l m : List Char}
    (h : ∀ x ∈ l, p x = true) :
    (l ++ m).dropWhile p = m.dropWhile p := by
  induction l with
  | nil => rfl
  | cons a l' ih =>
    have ha := h a (List.mem_cons_self _ _)
    rw [List.cons_append, List.dropWhile_cons, ha]
    simp only [if_true]
    exact ih fun x hx => h x (List.mem_cons_of_mem _ hx)

theorem takeWhile_all {p : Char → Bool} {l : List Char}
    (h : ∀ x ∈ l, p x = true) : l.takeWhile p = l := by
  induction l with
  | nil => rfl
  | cons a l' ih =>
    rw [List.takeWhile_cons, h a (List.mem_cons_self _ _)]
    simp only [if_true]
    rw [ih fun x hx => h x (List.mem_cons_of_mem _ hx)]

theorem dropWhile_head_false {p : Char → Bool} :
    ∀ {l : List Char} {c : Char} {r : List Char},
      l.dropWhile p = c :: r → p c = false
  | [], c, r, h => by simp at h
  | a :: l', c, r, h => by
    rw [List.dropWhile_cons] at h
    split at h
    · exact dropWhile_head_false h
    · rename_i ha
      injection h with h1 h2
      subst h1
      simpa using ha

theorem argClose_iff {line arg : List Char} :
    argBeforeLastClose line = some arg ↔
      ∃ rest, line = arg ++ ']' :: rest ∧ ∀ c ∈ rest, ¬ c = ']' := by
  constructor
  · intro h
    unfold argBeforeLastClose at h
    cases hd : line.reverse.dropWhile notClose with
    | nil => rw [hd] at h; exact absurd h (by simp)
    | cons d restRev =>
      rw [hd] at h
      have harg : restRev.reverse = arg := by
        simpa using h
      have hdc : d = ']' := by
        have := dropWhile_head_false hd
        simpa [notClose] using this
      have hsplit : line.reverse.takeWhile notClose ++ (d :: restRev) =
          line.reverse := by
        rw [← hd]; exact List.takeWhile_append_dropWhile notClose line.reverse
      refine ⟨(line.reverse.takeWhile notClose).reverse, ?_, ?_⟩
      · conv_lhs => rw [← List.reverse_reverse line, ← hsplit]
        rw [hdc, ← harg]
        simp
      · intro c hc
        have hc' : c ∈ line.reverse.takeWhile notClose :=
          List.mem_reverse.mp hc
        have := List.mem_takeWhile_imp hc'
        simpa [notClose] using this
  · rintro ⟨rest, rfl, hrest⟩
    unfold argBeforeLastClose
    have hrev : (arg ++ ']' :: rest).reverse =
        rest.reverse ++ ']' :: arg.reverse := by
      simp
    rw [hrev, dropWhile_append_all fun x hx => ?_]
    · rw [List.dropWhile_cons]
      simp [notClose]
    · have : x ∈ rest := List.mem_reverse.mp hx
      simp [notClose, hrest x this]

theorem trimL_sandwich {c d : Char} {l : List Char}
    (hc : isSpaceChar c = false) (hd : isSpaceChar d = false) :
    trimL (c :: (l ++ [d])) = c :: (l ++ [d]) := by
  unfold trimL
  rw [List.dropWhile_cons, hc]
  simp only [Bool.false_eq_true, if_false]
  have hrev : (c :: (l ++ [d])).reverse = d :: (l.reverse ++ [c]) := by simp
  rw [hrev, List.dropWhile_cons, hd]
  simp only [Bool.false_eq_true, if_false]
  simp

/-! ### The action grammar (§4.3 of the spec, amended) -/

/-- The tool-call grammar actually implemented by `_parse_action`: the string
starts with a non-empty run of word characters (the tool name), then `[`,
then the argument (newline-free, possibly containing `]`), then a `]` that is
the last `]` before any newline that follows the `[`; anything may follow
that last `]`.  This follows §4.3 of the spec except for its end-of-string
requirement, which `re.match` does not impose. -/
def specActionGrammar (s toolName arg : String) : Prop :=
  toolName.data ≠ [] ∧ (∀ c ∈ toolName.data, isWordChar c = true) ∧
  ∃ rest : List Char,
    s.data = toolName.data ++ '[' :: (arg.data ++ ']' :: rest) ∧
    (∀ c ∈ arg.data, ¬ c = '\n') ∧
    (∀ c ∈ rest.takeWhile notNewline, ¬ c = ']')

theorem parseAction_eq_some_iff (s toolName arg : String) :
    parseAction s = (some toolName, some arg) ↔
      specActionGrammar s toolName arg := by
  constructor
  · intro h
    unfold parseAction at h
    by_cases hn : s.data.takeWhile isWordChar = []
    · rw [if_pos hn] at h
      exact absurd h (by simp)
    · rw [if_neg hn] at h
      split at h
      · rename_i rest2 heqr
        split at h
        · rename_i arg0 heqa
          have h1 : toolName = String.mk (s.data.takeWhile isWordChar) := by
            have := congrArg Prod.fst h
            simpa using this.symm
          have h2 : arg = String.mk arg0 := by
            have := congrArg Prod.snd h
            simpa using this.symm
          obtain ⟨tail, hline, htail⟩ := argClose_iff.mp heqa
          refine ⟨?_, ?_, ?_⟩
          · rw [h1]; exact hn
          · intro c hc
            rw [h1] at hc
            exact List.mem_takeWhile_imp hc
          · refine ⟨tail ++ rest2.dropWhile notNewline, ?_, ?_, ?_⟩
            · conv_lhs =>
                rw [← List.takeWhile_append_dropWhile isWordChar s.data]
              rw [heqr]
              have hr2 : rest2 = arg0 ++ ']' :: (tail ++
                  rest2.dropWhile notNewline) := by
                conv_lhs =>
                  rw [← List.takeWhile_append_dropWhile notNewline rest2]
                rw [hline]
                simp
              rw [h1, h2]
              rw [← hr2]
            · intro c hc
              rw [h2] at hc
              have : c ∈ rest2.takeWhile notNewline := by
                rw [hline]
                exact List.mem_append_left _ hc
              have := List.mem_takeWhile_imp this
              simpa [notNewline] using this
            · intro c hc
              have htw : (tail ++ rest2.dropWhile notNewline).takeWhile
                  notNewline = tail ++ (rest2.dropWhile notNewline).takeWhile
                    notNewline := by
                refine takeWhile_append_all fun x hx => ?_
                have : x ∈ rest2.takeWhile notNewline := by
                  rw [hline]
                  exact List.mem_append_right _ (List.mem_cons_of_mem _ hx)
                exact List.mem_takeWhile_imp this
              rw [htw] at hc
              rcases List.mem_append.mp hc with hmem | hmem
              · exact htail c hmem
              · cases hdrop : rest2.dropWhile notNewline with
                | nil => rw [hdrop] at hmem; simp at hmem
                | cons e r =>
                  rw [hdrop] at hmem
                  have he : notNewline e = false := dropWhile_head_false hdrop
                  rw [List.takeWhile_cons, he] at hmem
                  simp at hmem
        · exact absurd h (by simp)
      · exact absurd h (by simp)
  · rintro ⟨hne, hword, rest, hdecomp, harg, hrest⟩
    have hword' : ∀ c ∈ toolName.data, isWordChar c = true := hword
    have hbr : isWordChar '[' = false := by decide
    have htake : s.data.takeWhile isWordChar = toolName.data := by
      rw [hdecomp, takeWhile_append_all hword', List.takeWhile_cons, hbr]
      simp
    have hdrop : s.data.dropWhile isWordChar =
        '[' :: (arg.data ++ ']' :: rest) := by
      rw [hdecomp, dropWhile_append_all hword', List.dropWhile_cons, hbr]
      simp
    have hline : (arg.data ++ ']' :: rest).takeWhile notNewline =
        arg.data ++ ']' :: rest.takeWhile notNewline := by
      rw [takeWhile_append_all fun x hx => by
        simpa [notNewline] using harg x hx]
      rw [List.takeWhile_cons, show notNewline ']' = true from by decide]
      simp
    unfold parseAction
    rw [htake, hdrop, if_neg hne]
    split
    · rename_i rest2 heq
      injection heq with heq1 heq2
      subst heq2
      rw [hline, argClose_iff.mpr ⟨rest.takeWhile notNewline, rfl, hrest⟩]
    · rename_i hno
      exact (hno (arg.data ++ ']' :: rest) rfl).elim

/-- C2 (counterexample): contrary to the claim, an input that does not end
with `]` can still parse — `re.match` has no end anchor, so
`parseAction "Search[a]x"` succeeds with tool `Search` and argument `a`
instead of leaving both fields absent. -/
theorem parseAction_trailing_text_cex :
    parseAction "Search[a]x" = (some "Search", some "a") ∧
      ¬ parseAction "Search[a]x" = (none, none) := by
  refine ⟨by decide, by decide⟩

/-- C2 (amended): `parseAction` succeeds iff the input starts with one or
more word characters followed by `[` and a `]` occurs later on the same
line; the tool name is the leading word characters and the argument is
everything between the first `[` and the last such `]` (greedy —
`parseAction "Search[a[b]c]"` yields `a[b]c`); text after that last `]` is
tolerated (no end-of-string requirement).  When no such decomposition
exists, both fields are absent. -/
theorem parseAction_grammar (s : String) :
    (∀ toolName arg : String,
        parseAction s = (some toolName, some arg) ↔
          specActionGrammar s toolName arg) ∧
    (parseAction s = (none, none) ∨
      ∃ toolName arg : String,
        parseAction s = (some toolName, some arg)) := by
  refine ⟨fun toolName arg => parseAction_eq_some_iff s toolName arg, ?_⟩
  unfold parseAction
  by_cases hn : s.data.takeWhile isWordChar = []
  · rw [if_pos hn]; exact Or.inl rfl
  · rw [if_neg hn]
    split
    · split
      · rename_i arg0 _
        exact Or.inr ⟨_, _, rfl⟩
      · exact Or.inl rfl
    · exact Or.inl rfl

/-! ### The output scanner (§4.2 of the spec, amended) -/

theorem find?_comp_map {α β : Type} (f : α → β) (l : List α) (p : β → Bool) :
    (l.map f).find? p = (l.find? fun x => p (f x)).map f := by
  induction l with
  | nil => rfl
  | cons a l' ih =>
    simp only [List.map_cons, List.find?_cons]
    cases h : p (f a) with
    | true => rfl
    | false => exact ih

theorem searchCapture_eq_find (pat : List Char) (hp : pat ≠ [])
    (s : List Char) :
    searchCapture pat s =
      ((List.range (s.length + 1)).find? fun i =>
        startsWithL pat (s.drop i)).map (fun i => s.drop (i + pat.length)) := by
  induction s with
  | nil =>
    rw [show ([] : List Char).length + 1 = 1 from rfl,
      show List.range 1 = [0] from rfl, List.find?_cons]
    simp [searchCapture, startsWithL_nil_false hp]
  | cons c cs ih =>
    rw [show (c :: cs).length + 1 = cs.length + 1 + 1 from rfl,
      List.range_succ_eq_map, List.find?_cons, searchCapture]
    cases hsw : startsWithL pat (c :: cs) with
    | true =>
      simp only [List.drop_zero, hsw, if_true]
      simp
    | false =>
      simp only [List.drop_zero, hsw, Bool.false_eq_true, if_false]
      rw [ih, find?_comp_map]
      simp only [List.drop_succ_cons, Option.map_map]
      have hfun : ((fun i => (c :: cs).drop (i + pat.length)) ∘ Nat.succ) =
          fun i : Nat => cs.drop (i + pat.length) := by
        funext i
        simp [Nat.succ_add, Function.comp]
      rw [hfun]

/-- Modelled from the amended §4.2 rule: for each marker, take the leftmost
occurrence of the marker anywhere in the text (not only at the start of a
line), capture everything after it up to but excluding the line terminator,
and strip surrounding whitespace; no occurrence yields an absent field. -/
def specFirstMatch (pat : List Char) (s : List Char) : Option String :=
  ((List.range (s.length + 1)).find? fun i => startsWithL pat (s.drop i)).map
    (fun i => String.mk (trimL ((s.drop (i + pat.length)).takeWhile notNewline)))

/-- The two independent scans of the amended §4.2 rule, leftmost occurrence
each. -/
def specParseOutput (text : String) : Option String × Option String :=
  (specFirstMatch "Thought: ".data text.data,
   specFirstMatch "Action: ".data text.data)

/-- C5 (counterexample): contrary to the claim, the `Thought: ` marker is
recognised anywhere in the text, not only at the start of a line —
`"xxThought: foo"` has no line of the form `Thought: <rest>`, yet the parsed
thought is `"foo"` rather than absent. -/
theorem parseOutput_midline_cex :
    (parseOutput "xxThought: foo").1 = some "foo" := by decide

/-- C5 (amended): `parseOutput` scans for the leftmost occurrence of
`"Thought: "` and, independently, of `"Action: "` anywhere in the text (not
only at the start of a line); it captures everything after the marker up to
but not including the line terminator, trimmed of surrounding whitespace;
only the first occurrence of each marker is used, and a missing marker
yields an absent field. -/
theorem parseOutput_eq_spec (text : String) :
    parseOutput text = specParseOutput text := by
  unfold parseOutput specParseOutput specFirstMatch
  rw [searchCapture_eq_find "Thought: ".data (by decide) text.data,
    searchCapture_eq_find "Action: ".data (by decide) text.data]
  simp only [Option.map_map]
  rfl

/-! ### Thoughts and control flow (C3) -/

/-- The only part of a generator response that the loop body inspects: the
parsed action, with a failed generation, an empty response text, a missing
`Action:` marker and an empty action text all collapsed to `none` (each of
these halts the run in the same way). -/
def effAction (r : Option String) : Option String :=
  match r with
  | none => none
  | some t =>
    if t = "" then none
    else
      match (parseOutput t).2 with
      | none => none
      | some a => if a = "" then none else some a

theorem stepF_eq_effAction (tools : String → Option (String → String))
    (r : Option String) :
    stepF tools r = match effAction r with
      | none => .halt .aborted
      | some a => actionStep tools a := by
  cases r with
  | none => rfl
  | some t =>
    by_cases ht : t = ""
    · subst ht; rfl
    · simp only [stepF, effAction, if_neg ht]
      cases h : (parseOutput t).2 with
      | none => rfl
      | some a =>
        by_cases ha : a = ""
        · simp [ha]
        · simp [ha]

theorem runLoop_succ (responses : Nat → Option String)
    (tools : String → Option (String → String)) (fuel calls : Nat)
    (hist : List String) :
    runLoop responses tools (fuel + 1) calls hist =
      match stepF tools (responses calls) with
      | .halt out => ⟨out, hist, calls + 1⟩
      | .next es => runLoop responses tools fuel (calls + 1) (hist ++ es) :=
  rfl

theorem runLoop_succ_halt {responses : Nat → Option String}
    {tools : String → Option (String → String)} {fuel calls : Nat}
    {hist : List String} {out : RunOutcome}
    (h : stepF tools (responses calls) = .halt out) :
    runLoop responses tools (fuel + 1) calls hist = ⟨out, hist, calls + 1⟩ := by
  rw [runLoop_succ, h]

theorem runLoop_succ_next {responses : Nat → Option String}
    {tools : String → Option (String → String)} {fuel calls : Nat}
    {hist : List String} {es : List String}
    (h : stepF tools (responses calls) = .next es) :
    runLoop responses tools (fuel + 1) calls hist =
      runLoop responses tools fuel (calls + 1) (hist ++ es) := by
  rw [runLoop_succ, h]

/-- C3 (counterexample): two scripted generator sequences that differ only
in the text of their `Thought:` line — their `Action:` lines are the
identical `Action: Finish[1]` — produce different results: the `Action: `
scan of `_parse_output` is not anchored to the start of a line, so an
occurrence of `Action: ` inside the thought line wins as the first
occurrence and redirects control flow. -/
theorem run_thought_interference_cex :
    run (fun i => if i = 0 then some "Thought: a\nAction: Finish[1]" else none)
        (fun _ => none) 5 = ⟨.finished "1", [], 1⟩ ∧
    run (fun i => if i = 0
          then some "Thought: Action: Finish[2]\nAction: Finish[1]" else none)
        (fun _ => none) 5 = ⟨.finished "2", [], 1⟩ :=
  ⟨by decide, by decide⟩

/-- C3 (amended): the run depends on the generator responses only through
the extracted action (and the collapsed failure conditions): any two
response sequences with the same `effAction` at every call index give the
same result, the same history and the same call count.  Thought text can
influence control flow only by changing the extracted action, which it does
when it contains an embedded `Action: ` occurrence, since the scan is not
line-anchored. -/
theorem run_depends_only_on_actions (r1 r2 : Nat → Option String)
    (tools : String → Option (String → String))
    (h : ∀ i, effAction (r1 i) = effAction (r2 i)) :
    ∀ maxSteps, run r1 tools maxSteps = run r2 tools maxSteps := by
  have key : ∀ fuel calls hist,
      runLoop r1 tools fuel calls hist = runLoop r2 tools fuel calls hist := by
    intro fuel
    induction fuel with
    | zero => intro calls hist; rfl
    | succ f ih =>
      intro calls hist
      have hstep : stepF tools (r1 calls) = stepF tools (r2 calls) := by
        rw [stepF_eq_effAction, stepF_eq_effAction, h calls]
      rw [runLoop_succ, runLoop_succ, hstep]
      cases stepF tools (r2 calls) with
      | halt out => rfl
      | next es => exact ih _ _
  exact fun maxSteps => key maxSteps 0 []

/-- Closed instance of `run_depends_only_on_actions`: two concrete scripted
sequences whose responses differ in the thought text but extract the same
action give identical runs. -/
theorem run_depends_only_on_actions_witness :
    run (fun i => if i = 0 then some "Thought: x\nAction: Finish[7]" else none)
        (fun _ => none) 3 =
      run (fun i => if i = 0 then some "Thought: wholly different\nAction: Finish[7]"
            else none)
        (fun _ => none) 3 :=
  run_depends_only_on_actions _ _ _
    (fun i => by cases i with | zero => decide | succ n => rfl) 3

/-! ### The Finish slip (C1) -/

/-- C1 (code evaluated at the failing input): when the generator's first
response is `Thought: t\nAction: Finish` — the action starts with `Finish`
but carries no bracketed payload — `re.match(r"Finish\[(.*)\]", action)`
returns `None` and the unguarded `.group(1)` on line 77 raises
`AttributeError`, so the run crashes on its first step with an empty
history instead of consuming the step as a grammar failure. -/
theorem run_finish_without_brackets_crashes :
    run (fun i => if i = 0 then some "Thought: t\nAction: Finish" else none)
      (fun _ => none) 5 = ⟨.crashed, [], 1⟩ := by decide

/-! ### Empty generator response (C10) -/

/-- C10: an empty generator response is treated exactly like a generation
failure (`if not response_text` is true for both `None` and `""`): the run
aborts immediately on that step with no answer, the step's generator call is
counted, and no history entries are appended — the very same final state as
for an absent response. -/
theorem empty_response_like_failure
    (responses responses2 : Nat → Option String)
    (tools : String → Option (String → String)) (fuel calls : Nat)
    (hist : List String)
    (h : responses calls = some "") (h2 : responses2 calls = none) :
    runLoop responses tools (fuel + 1) calls hist =
      ⟨.aborted, hist, calls + 1⟩ ∧
    runLoop responses2 tools (fuel + 1) calls hist =
      ⟨.aborted, hist, calls + 1⟩ := by
  constructor
  · rw [runLoop_succ, h]; rfl
  · rw [runLoop_succ, h2]; rfl

/-- Closed instance of `empty_response_like_failure`. -/
theorem empty_response_like_failure_witness :
    runLoop (fun _ => some "") (fun _ => none) 1 0 [] = ⟨.aborted, [], 1⟩ ∧
    runLoop (fun _ => none) (fun _ => none) 1 0 [] = ⟨.aborted, [], 1⟩ :=
  empty_response_like_failure (fun _ => some "") (fun _ => none)
    (fun _ => none) 0 0 [] rfl rfl

/-! ### The step bound (C7) -/

/-- Whether one loop iteration on response `r` would continue to the next
step (as opposed to returning or raising). -/
def continuesB (tools : String → Option (String → String))
    (r : Option String) : Bool :=
  match stepF tools r with
  | .halt _ => false
  | .next _ => true

theorem runLoop_calls_le (responses : Nat → Option String)
    (tools : String → Option (String → String)) :
    ∀ fuel calls hist,
      (runLoop responses tools fuel calls hist).calls ≤ calls + fuel ∧
      ((runLoop responses tools fuel calls hist).calls = calls + fuel →
        ∀ i, i < fuel - 1 → continuesB tools (responses (calls + i)) = true) := by
  intro fuel
  induction fuel with
  | zero =>
    intro calls hist
    exact ⟨Nat.le_refl _, fun _ i hi => absurd hi (by omega)⟩
  | succ f ih =>
    intro calls hist
    cases hstep : stepF tools (responses calls) with
    | halt out =>
      rw [runLoop_succ_halt hstep]
      refine ⟨?_, fun heq i hi => ?_⟩
      · show calls + 1 ≤ calls + (f + 1)
        omega
      · have heq' : calls + 1 = calls + (f + 1) := heq
        exact absurd hi (by omega)
    | next es =>
      rw [runLoop_succ_next hstep]
      obtain ⟨ih1, ih2⟩ := ih (calls + 1) (hist ++ es)
      refine ⟨by omega, fun heq i hi => ?_⟩
      cases i with
      | zero =>
        rw [Nat.add_zero]
        simp only [continuesB, hstep]
      | succ j =>
        rw [show calls + (j + 1) = (calls + 1) + j by omega]
        exact ih2 (by omega) j (by omega)

/-- C7: for every `max_steps = n > 0` the run makes at most `n` generator
calls (the loop counter `current_step` never exceeds `max_steps`, so the
total run terminates once the scripted calls return), and it makes exactly
`n` calls only if every step before the `n`-th one continued — i.e. no
Finish return, no crash and no abort occurred earlier. -/
theorem run_call_bound (responses : Nat → Option String)
    (tools : String → Option (String → String)) (n : Nat) (hn : 0 < n) :
    (run responses tools n).calls ≤ n ∧
    ((run responses tools n).calls = n →
      ∀ i, i < n - 1 → continuesB tools (responses i) = true) := by
  have h := runLoop_calls_le responses tools n 0 []
  simpa using h

/-- Closed instance of `run_call_bound`. -/
theorem run_call_bound_witness :
    0 < 2 ∧
    ((run (fun _ => none) (fun _ => none) 2).calls ≤ 2 ∧
      ((run (fun _ => none) (fun _ => none) 2).calls = 2 →
        ∀ i, i < 2 - 1 → continuesB (fun _ => none) ((fun _ => none) i) = true)) :=
  ⟨by decide, run_call_bound (fun _ => none) (fun _ => none) 2 (by decide)⟩

/-! ### The history invariant (C8) -/

/-- The two history lines recorded for one dispatched step. -/
def pairLines (p : String × String) : List String :=
  ["Action: " ++ p.1, "Observation: " ++ p.2]

theorem actionStep_shape (tools : String → Option (String → String))
    (a : String) :
    (∃ out, actionStep tools a = .halt out) ∨ actionStep tools a = .next [] ∨
    ∃ x o, actionStep tools a = .next (pairLines (x, o)) := by
  unfold actionStep
  split
  · split
    · exact Or.inl ⟨_, rfl⟩
    · exact Or.inl ⟨_, rfl⟩
  · split
    · split
      · exact Or.inr (Or.inl rfl)
      · exact Or.inr (Or.inr ⟨a, _, rfl⟩)
    · exact Or.inr (Or.inl rfl)

theorem stepF_shape (tools : String → Option (String → String))
    (r : Option String) :
    (∃ out, stepF tools r = .halt out) ∨ stepF tools r = .next [] ∨
    ∃ x o, stepF tools r = .next (pairLines (x, o)) := by
  cases r with
  | none => exact Or.inl ⟨_, rfl⟩
  | some t =>
    by_cases ht : t = ""
    · subst ht; exact Or.inl ⟨_, rfl⟩
    · simp only [stepF, if_neg ht]
      cases hpo : (parseOutput t).2 with
      | none => exact Or.inl ⟨_, rfl⟩
      | some a =>
        simp only []
        split
        · exact Or.inl ⟨_, rfl⟩
        · exact actionStep_shape tools a

theorem run_history_shape (responses : Nat → Option String)
    (tools : String → Option (String → String)) :
    ∀ fuel calls hist, ∃ pairs : List (String × String),
      (runLoop responses tools fuel calls hist).history =
        hist ++ (pairs.map pairLines).flatten ∧
      (runLoop responses tools fuel calls hist).history.length =
        hist.length + 2 * pairs.length := by
  intro fuel
  induction fuel with
  | zero =>
    intro calls hist
    exact ⟨[], by simp [runLoop], by simp [runLoop]⟩
  | succ f ih =>
    intro calls hist
    rcases stepF_shape tools (responses calls) with ⟨out, hs⟩ | hs | ⟨x, o, hs⟩
    · rw [runLoop_succ_halt hs]
      exact ⟨[], by simp, by simp⟩
    · rw [runLoop_succ_next hs, List.append_nil]
      exact ih (calls + 1) hist
    · rw [runLoop_succ_next hs]
      obtain ⟨pairs, h1, h2⟩ := ih (calls + 1) (hist ++ pairLines (x, o))
      refine ⟨(x, o) :: pairs, ?_, ?_⟩
      · rw [h1]
        simp [pairLines]
      · rw [h2]
        simp [pairLines]
        omega

/-- C8: the history is append-only within a run and grows only by
`Action:`/`Observation:` pairs, always in that order for the same step, so
a halted step contributes nothing; `run` itself starts from the freshly
reset empty history, hence its final history is exactly the rendered pairs
and its length is the even number `2 * pairs.length`.  (`run` is a pure
function of its scripted inputs, so one call's history cannot leak into a
later call's.) -/
theorem run_history_invariant (responses : Nat → Option String)
    (tools : String → Option (String → String)) (maxSteps : Nat) :
    (∀ fuel calls hist, ∃ pairs : List (String × String),
      (runLoop responses tools fuel calls hist).history =
        hist ++ (pairs.map pairLines).flatten) ∧
    ∃ pairs : List (String × String),
      (run responses tools maxSteps).history = (pairs.map pairLines).flatten ∧
      (run responses tools maxSteps).history.length = 2 * pairs.length := by
  constructor
  · intro fuel calls hist
    obtain ⟨pairs, h1, -⟩ := run_history_shape responses tools fuel calls hist
    exact ⟨pairs, h1⟩
  · obtain ⟨pairs, h1, h2⟩ := run_history_shape responses tools maxSteps 0 []
    exact ⟨pairs, by simpa using h1, by simpa using h2⟩

/-! ### Unknown tools (C9) -/

theorem parseOutput_empty : (parseOutput "").2 = none := rfl

theorem parseAction_empty : parseAction "" = (none, none) := rfl

/-- C9: when the parsed action names a tool with no registered callable, the
run does not abort: the synthetic error observation — which contains the
missing tool's name — is recorded into history together with the `Action:`
line exactly as a normal observation would be, so history grows by exactly
two entries, the step counter by exactly one, and the loop continues with
the next step. -/
theorem unknown_tool_records_error (responses : Nat → Option String)
    (tools : String → Option (String → String)) (fuel calls : Nat)
    (hist : List String) (t a n inp : String)
    (hr : responses calls = some t)
    (ha : (parseOutput t).2 = some a)
    (hnf : startsWithL "Finish".data a.data = false)
    (hpa : parseAction a = (some n, some inp))
    (hn : ¬ n = "") (hi : ¬ inp = "")
    (htool : tools n = none) :
    runLoop responses tools (fuel + 1) calls hist =
      runLoop responses tools fuel (calls + 1)
        (hist ++ ["Action: " ++ a, "Observation: " ++ errObs n]) ∧
    ∃ pre post, (errObs n).data = pre ++ n.data ++ post := by
  have hane : ¬ a = "" := by
    intro h
    rw [h, parseAction_empty] at hpa
    simp at hpa
  have htne : ¬ t = "" := by
    intro h
    rw [h, parseOutput_empty] at ha
    simp at ha
  constructor
  · refine runLoop_succ_next ?_
    rw [hr]
    simp only [stepF, if_neg htne, ha]
    simp only [if_neg hane]
    unfold actionStep
    simp only [hnf, Bool.false_eq_true, if_false]
    rw [hpa]
    simp [hn, hi, htool]
  · refine ⟨"错误:未找到名为 \x27".data, "\x27 的工具。".data, ?_⟩
    simp [errObs]

/-- Closed instance of `unknown_tool_records_error`: dispatching to the
unregistered tool `Missing` appends the Action line and the error
observation naming `Missing`, and the loop continues. -/
theorem unknown_tool_records_error_witness :
    runLoop (fun _ => some "Action: Missing[x]") (fun _ => none) 1 0 [] =
      runLoop (fun _ => some "Action: Missing[x]") (fun _ => none) 0 1
        (["Action: Missing[x]", "Observation: " ++ errObs "Missing"]) ∧
    ∃ pre post, (errObs "Missing").data = pre ++ "Missing".data ++ post := by
  have h := unknown_tool_records_error (fun _ => some "Action: Missing[x]")
    (fun _ => none) 0 0 [] "Action: Missing[x]" "Missing[x]" "Missing" "x"
    rfl (by decide) (by decide) (by decide) (by decide) (by decide) rfl
  simpa using h

/-! ### Empty tool argument (C4) -/

/-- C4 (counterexample): for the action `T[]` with the tool `T` registered,
`parseAction` does yield both fields (`T` and the empty string), but the
claimed dispatch never happens: the run leaves history empty and dispatches
nothing, because `if not tool_input` is true for the empty string. -/
theorem empty_arg_not_dispatched_cex :
    parseAction "T[]" = (some "T", some "") ∧
    run (fun i => if i = 0 then some "Action: T[]" else none)
        (fun n => if n = "T" then some (fun _ => "ok") else none) 2 =
      ⟨.aborted, [], 2⟩ :=
  ⟨by decide, by decide⟩

/-- C4 (amended): for an action `<Name>[]`, `parseAction` yields both fields
present — the tool name and the empty-string argument — but the
orchestrator's truthiness test `if not tool_name or not tool_input` treats
the empty argument like a failed parse: the step is consumed with no tool
dispatch and no history entries, even when the tool is registered, and the
run continues with the next step. -/
theorem empty_arg_skips_step (responses : Nat → Option String)
    (tools : String → Option (String → String)) (fuel calls : Nat)
    (hist : List String) (t toolName : String)
    (hword : toolName.data ≠ [] ∧ ∀ c ∈ toolName.data, isWordChar c = true)
    (hr : responses calls = some t)
    (ha : (parseOutput t).2 = some (String.mk (toolName.data ++ ['[', ']'])))
    (hnf : startsWithL "Finish".data (toolName.data ++ ['[', ']']) = false) :
    parseAction (String.mk (toolName.data ++ ['[', ']'])) =
      (some toolName, some "") ∧
    runLoop responses tools (fuel + 1) calls hist =
      runLoop responses tools fuel (calls + 1) hist := by
  have hpa : parseAction (String.mk (toolName.data ++ ['[', ']'])) =
      (some toolName, some "") := by
    rw [parseAction_eq_some_iff]
    refine ⟨hword.1, hword.2, [], ?_, ?_, ?_⟩
    · show toolName.data ++ ['[', ']'] = toolName.data ++ '[' :: ("".data ++ ']' :: [])
      rfl
    · intro c hc
      exact absurd hc (by simp [String.data])
    · intro c hc
      exact absurd hc (by simp)
  have hane : ¬ String.mk (toolName.data ++ ['[', ']']) = "" := by
    intro h
    have := congrArg String.data h
    simp at this
  have htne : ¬ t = "" := by
    intro h
    rw [h, parseOutput_empty] at ha
    simp at ha
  refine ⟨hpa, ?_⟩
  have hstep : stepF tools (responses calls) = .next [] := by
    rw [hr]
    simp only [stepF, if_neg htne, ha]
    simp only [if_neg hane]
    unfold actionStep
    simp only [hnf, Bool.false_eq_true, if_false]
    rw [hpa]
    simp
  rw [runLoop_succ_next hstep, List.append_nil]

/-- Closed instance of `empty_arg_skips_step`: with `T` registered, the
action `T[]` parses to `(T, "")` yet the step is skipped with no history. -/
theorem empty_arg_skips_step_witness :
    parseAction (String.mk ("T".data ++ ['[', ']'])) = (some "T", some "") ∧
    runLoop (fun _ => some "Action: T[]")
        (fun n => if n = "T" then some (fun _ => "ok") else none) 1 0 [] =
      runLoop (fun _ => some "Action: T[]")
        (fun n => if n = "T" then some (fun _ => "ok") else none) 0 1 [] :=
  empty_arg_skips_step (fun _ => some "Action: T[]")
    (fun n => if n = "T" then some (fun _ => "ok") else none) 0 0 []
    "Action: T[]" "T" ⟨by decide, by decide⟩ rfl (by decide) (by decide)

/-! ### Scripted finish (C6) -/

/-- A scripted generator response that successfully dispatches a registered
tool: non-empty text with a parsed non-empty action that is not a `Finish`
directive, parses into a non-empty tool name and non-empty input, and names
a registered tool. -/
def isDispatch (tools : String → Option (String → String))
    (r : Option String) : Bool :=
  match r with
  | none => false
  | some t =>
    if t = "" then false
    else
      match (parseOutput t).2 with
      | none => false
      | some a =>
        if a = "" then false
        else if startsWithL "Finish".data a.data then false
        else
          match parseAction a with
          | (some toolName, some toolInput) =>
            if toolName = "" || toolInput = "" then false
            else (tools toolName).isSome
          | _ => false

theorem stepF_dispatch {tools : String → Option (String → String)}
    {r : Option String} (h : isDispatch tools r = true) :
    ∃ x o, stepF tools r = .next ["Action: " ++ x, "Observation: " ++ o] := by
  cases r with
  | none => simp [isDispatch] at h
  | some t =>
    by_cases ht : t = ""
    · rw [ht] at h
      simp [isDispatch] at h
    · simp only [isDispatch, if_neg ht] at h
      cases hpo : (parseOutput t).2 with
      | none => rw [hpo] at h; simp at h
      | some a =>
        rw [hpo] at h
        simp only [] at h
        by_cases ha : a = ""
        · simp [ha] at h
        · rw [if_neg ha] at h
          by_cases hf : startsWithL "Finish".data a.data = true
          · rw [if_pos hf] at h
            exact absurd h (by simp)
          · rw [if_neg hf] at h
            rcases hpa : parseAction a with ⟨n?, i?⟩
            rw [hpa] at h
            rcases n? with _ | n
            · simp at h
            · rcases i? with _ | i
              · simp at h
              · simp only [] at h
                by_cases hni : (n = "" || i = "") = true
                · rw [if_pos hni] at h
                  exact absurd h (by simp)
                · rw [if_neg hni] at h
                  obtain ⟨f, hfn⟩ := Option.isSome_iff_exists.mp h
                  refine ⟨a, f i, ?_⟩
                  simp only [stepF, if_neg ht, hpo, if_neg ha]
                  unfold actionStep
                  rw [if_neg hf, hpa]
                  simp only []
                  rw [if_neg hni, hfn]

theorem searchCapture_cons_false {pat : List Char} {c : Char}
    {cs : List Char} (h : startsWithL pat (c :: cs) = false) :
    searchCapture pat (c :: cs) = searchCapture pat cs := by
  rw [searchCapture, h]
  simp

theorem searchCapture_at_self (pat tail : List Char) (hp : pat ≠ []) :
    searchCapture pat (pat ++ tail) = some tail := by
  cases pat with
  | nil => exact absurd rfl hp
  | cons a ps =>
    rw [List.cons_append, searchCapture]
    rw [show startsWithL (a :: ps) (a :: (ps ++ tail)) = true from
      startsWithL_self_append (a :: ps) tail]
    simp only [if_true]
    show some ((a :: ps ++ tail).drop (a :: ps).length) = some tail
    rw [List.drop_left]

theorem parseOutput_thought_finish (t p : String)
    (ht : searchCapture "Action: ".data ("Thought: " ++ t).data = none)
    (hp : ∀ c ∈ p.data, ¬ c = '\n') :
    (parseOutput ("Thought: " ++ t ++ "\nAction: Finish[" ++ p ++ "]")).2 =
      some (String.mk ("Finish[".data ++ (p.data ++ [']']))) := by
  have hdata : ("Thought: " ++ t ++ "\nAction: Finish[" ++ p ++ "]").data =
      ("Thought: " ++ t).data ++ '\n' ::
        ("Action: ".data ++ ("Finish[".data ++ (p.data ++ [']']))) := by
    simp only [String.data_append]
    simp [List.append_assoc]
  have hxs : ∀ i, i < ("Thought: " ++ t).data.length →
      startsWithL "Action: ".data (("Thought: " ++ t).data.drop i ++
        '\n' :: ("Action: ".data ++ ("Finish[".data ++ (p.data ++ [']'])))) =
        false := by
    intro i hi
    cases hcon : startsWithL "Action: ".data (("Thought: " ++ t).data.drop i ++
        '\n' :: ("Action: ".data ++ ("Finish[".data ++ (p.data ++ [']'])))) with
    | false => rfl
    | true =>
      exfalso
      have hT := searchCapture_none_forall (by decide) ht
      by_cases hlen : ("Action: ".data : List Char).length ≤
          (("Thought: " ++ t).data.drop i).length
      · have := startsWithL_append_left hcon hlen
        rw [hT i] at this
        simp at this
      · have hmem := mem_of_startsWithL_overhang hcon (by omega)
        revert hmem
        decide
  have hnl : startsWithL "Action: ".data
      ('\n' :: ("Action: ".data ++ ("Finish[".data ++ (p.data ++ [']'])))) =
        false := by
    rw [show ("Action: " : String).data = 'A' :: "ction: ".data from rfl,
      startsWithL]
    rw [show (('A' : Char) == '\n') = false from by decide, Bool.false_and]
  have hscan : searchCapture "Action: ".data
      ("Thought: " ++ t ++ "\nAction: Finish[" ++ p ++ "]").data =
      some ("Finish[".data ++ (p.data ++ [']'])) := by
    rw [hdata, searchCapture_append_none hxs, searchCapture_cons_false hnl,
      searchCapture_at_self _ _ (by decide)]
  have halltail : ∀ c ∈ ("Finish[".data ++ (p.data ++ [']'])),
      notNewline c = true := by
    intro c hc
    rcases List.mem_append.mp hc with h1 | h23
    · exact (by decide : ∀ c ∈ ("Finish[" : String).data,
        notNewline c = true) c h1
    · rcases List.mem_append.mp h23 with h2 | h3
      · simpa [notNewline] using hp c h2
      · simp only [List.mem_singleton] at h3
        subst h3
        decide
  have htake : ("Finish[".data ++ (p.data ++ [']'])).takeWhile notNewline =
      "Finish[".data ++ (p.data ++ [']']) := takeWhile_all halltail
  have htrim : trimL ("Finish[".data ++ (p.data ++ [']'])) =
      "Finish[".data ++ (p.data ++ [']']) := by
    rw [show ("Finish[".data : List Char) ++ (p.data ++ [']']) =
      'F' :: (("inish[".data ++ p.data) ++ [']']) from by
        simp [List.append_assoc]]
    exact trimL_sandwich (by decide) (by decide)
  unfold parseOutput
  simp only []
  rw [hscan, Option.map_some', htake, htrim]

theorem finishPayload_mk (p : String) (hp : ∀ c ∈ p.data, ¬ c = '\n') :
    finishPayload (String.mk ("Finish[".data ++ (p.data ++ [']']))) = some p := by
  unfold finishPayload
  rw [show (String.mk ("Finish[".data ++ (p.data ++ [']']))).data =
    "Finish[".data ++ (p.data ++ [']']) from rfl]
  rw [show startsWithL "Finish[".data
      ("Finish[".data ++ (p.data ++ [']'])) = true from
    startsWithL_self_append _ _]
  simp only [if_true]
  rw [show ("Finish[".data ++ (p.data ++ [']'])).drop
      ("Finish[".data : List Char).length = p.data ++ [']'] from
    List.drop_left _ _]
  have htw : (p.data ++ [']']).takeWhile notNewline = p.data ++ [']'] := by
    refine takeWhile_all fun c hc => ?_
    rcases List.mem_append.mp hc with h1 | h2
    · simpa [notNewline] using hp c h1
    · simp only [List.mem_singleton] at h2
      subst h2
      decide
  rw [htw, (@argClose_iff (p.data ++ [']']) p.data).mpr ⟨[], rfl, by simp⟩,
    Option.map_some']

theorem stepF_finish (tools : String → Option (String → String)) (t p : String)
    (ht : searchCapture "Action: ".data ("Thought: " ++ t).data = none)
    (hp : ∀ c ∈ p.data, ¬ c = '\n') :
    stepF tools (some ("Thought: " ++ t ++ "\nAction: Finish[" ++ p ++ "]")) =
      .halt (.finished p) := by
  have hpo := parseOutput_thought_finish t p ht hp
  have htne : ¬ ("Thought: " ++ t ++ "\nAction: Finish[" ++ p ++ "]") = "" := by
    intro h
    have := congrArg String.data h
    simp [String.data_append] at this
  have hane : ¬ String.mk ("Finish[".data ++ (p.data ++ [']'])) = "" := by
    intro h
    have := congrArg String.data h
    simp at this
  simp only [stepF, if_neg htne, hpo]
  simp only [if_neg hane]
  unfold actionStep
  rw [show startsWithL "Finish".data
      (String.mk ("Finish[".data ++ (p.data ++ [']']))).data = true from by
    rw [show (String.mk ("Finish[".data ++ (p.data ++ [']']))).data =
      "Finish".data ++ ('[' :: (p.data ++ [']'])) from rfl]
    exact startsWithL_self_append _ _]
  simp only [if_true]
  rw [finishPayload_mk p hp]

theorem runLoop_finish_aux (responses : Nat → Option String)
    (tools : String → Option (String → String)) (t p : String)
    (ht : searchCapture "Action: ".data ("Thought: " ++ t).data = none)
    (hp : ∀ c ∈ p.data, ¬ c = '\n') (k : Nat) :
    ∀ fuel calls hist, 1 ≤ k → k ≤ fuel →
      (∀ i, i < k - 1 → isDispatch tools (responses (calls + i)) = true) →
      responses (calls + (k - 1)) =
        some ("Thought: " ++ t ++ "\nAction: Finish[" ++ p ++ "]") →
      (runLoop responses tools fuel calls hist).outcome = .finished p ∧
      (runLoop responses tools fuel calls hist).calls = calls + k ∧
      (runLoop responses tools fuel calls hist).history.length =
        hist.length + 2 * (k - 1) := by
  induction k with
  | zero => intro fuel calls hist h1; exact absurd h1 (by omega)
  | succ m ih =>
    intro fuel calls hist h1 hfuel hdisp hfin
    cases fuel with
    | zero => exact absurd hfuel (by omega)
    | succ f =>
      by_cases hm : m = 0
      · subst hm
        have hfin' : responses calls =
            some ("Thought: " ++ t ++ "\nAction: Finish[" ++ p ++ "]") := by
          simpa using hfin
        rw [runLoop_succ_halt (by rw [hfin']; exact stepF_finish tools t p ht hp)]
        exact ⟨rfl, rfl, by simp⟩
      · have hm1 : 1 ≤ m := Nat.one_le_iff_ne_zero.mpr hm
        have hd0 : isDispatch tools (responses calls) = true := by
          have := hdisp 0 (by omega)
          simpa using this
        obtain ⟨x, o, hs⟩ := stepF_dispatch hd0
        rw [runLoop_succ_next hs]
        obtain ⟨o1, o2, o3⟩ := ih f (calls + 1)
          (hist ++ ["Action: " ++ x, "Observation: " ++ o]) hm1 (by omega)
          (fun i hi => by
            have := hdisp (i + 1) (by omega)
            rwa [show calls + (i + 1) = calls + 1 + i by omega] at this)
          (by rwa [show calls + (m + 1 - 1) = calls + 1 + (m - 1) by omega]
            at hfin)
        refine ⟨o1, by omega, ?_⟩
        rw [o3]
        have hlen : (hist ++ ["Action: " ++ x, "Observation: " ++ o]).length =
            hist.length + 2 := by simp
        omega

/-- C6: when the first `k - 1` scripted responses each successfully dispatch
a registered tool and the `k`-th response is `Thought: t\nAction: Finish[p]`
(with `k ≤ max_steps`, the thought free of an embedded `Action: ` marker,
and the payload newline-free), `run` returns the literal payload `p` after
exactly `k` generator calls, and the history at that moment holds exactly
`2 * (k - 1)` lines. -/
theorem run_scripted_finish (responses : Nat → Option String)
    (tools : String → Option (String → String)) (n k : Nat) (t p : String)
    (hk1 : 1 ≤ k) (hkn : k ≤ n)
    (hdisp : ∀ i, i < k - 1 → isDispatch tools (responses i) = true)
    (hfin : responses (k - 1) =
      some ("Thought: " ++ t ++ "\nAction: Finish[" ++ p ++ "]"))
    (ht : searchCapture "Action: ".data ("Thought: " ++ t).data = none)
    (hp : ∀ c ∈ p.data, ¬ c = '\n') :
    (run responses tools n).outcome = .finished p ∧
    (run responses tools n).calls = k ∧
    (run responses tools n).history.length = 2 * (k - 1) := by
  obtain ⟨o1, o2, o3⟩ := runLoop_finish_aux responses tools t p ht hp k n 0 []
    hk1 hkn (fun i hi => by simpa using hdisp i hi) (by simpa using hfin)
  exact ⟨o1, by simpa using o2, by simpa using o3⟩

/-- Closed instance of `run_scripted_finish`: one successful `Search`
dispatch followed by `Thought: t\nAction: Finish[42]` returns `"42"` after
2 calls with history length 2. -/
theorem run_scripted_finish_witness :
    (run (fun i => if i = 0 then some "Thought: s\nAction: Search[q]"
        else some "Thought: t\nAction: Finish[42]")
      (fun nm => if nm = "Search" then some (fun _ => "obs") else none)
      5).outcome = .finished "42" ∧
    (run (fun i => if i = 0 then some "Thought: s\nAction: Search[q]"
        else some "Thought: t\nAction: Finish[42]")
      (fun nm => if nm = "Search" then some (fun _ => "obs") else none)
      5).calls = 2 ∧
    (run (fun i => if i = 0 then some "Thought: s\nAction: Search[q]"
        else some "Thought: t\nAction: Finish[42]")
      (fun nm => if nm = "Search" then some (fun _ => "obs") else none)
      5).history.length = 2 * (2 - 1) :=
  run_scripted_finish _ _ 5 2 "t" "42" (by decide) (by decide)
    (fun i hi => by
      have : i = 0 := by omega
      subst this
      decide)
    (by decide) (by decide) (by decide)

end ReActAgent
